import Mathlib

/-!
Verification of the dependency-listing core in
`src/ext-src/packages/npm/NpmUtils.ts`.

JavaScript strings are modelled as lists of characters (`JStr`); the
JS ordinal string comparison `<` is modelled as lexicographic comparison
of character code points (`strLt`).  JS `Array` values are Lean lists,
JS objects holding dependency maps are association lists in key-insertion
order (the order `Object.keys` enumerates), and a thrown exception is an
`Except.error`.  Optional TypeScript fields (`IsTransitive?`,
`DependencyType?`) are `Option` values, with `none` for `undefined`.
-/

/-- Model of a JavaScript string: the sequence of its characters. -/
abbrev JStr := List Char

/-- Embed a Lean string literal into the model. -/
def str (x : String) : JStr := x.data

/-- JS whitespace test for the characters relevant to listing output
(space, tab, newline, carriage return), used by `trim`. -/
def isWs (c : Char) : Bool := (c == ' ') || (c == '\t') || (c == '\n') || (c == '\r')

/-- Model of `String.prototype.trim`: drop whitespace from both ends. -/
def trim (l : JStr) : JStr :=
  ((l.dropWhile isWs).reverse.dropWhile isWs).reverse

/-- Model of `String.prototype.split(sep)` for a one-character separator:
splits on every occurrence, keeping empty segments, and yields at least
one segment. -/
def splitOnChar (sep : Char) : JStr → List JStr
  | [] => [[]]
  | c :: rest =>
    match splitOnChar sep rest with
    | [] => [[c]]
    | h :: t => if c = sep then [] :: h :: t else (c :: h) :: t

/-- Model of `String.prototype.includes(pat)`: `pat` occurs as a
contiguous substring of `l`. -/
def containsSub (l pat : JStr) : Bool :=
  match l with
  | [] => pat.isEmpty
  | _ :: t => pat.isPrefixOf l || containsSub t pat

/-- Model of `String.prototype.replace(pat, rep)` with string `pat`:
replace the first occurrence of `pat` only. -/
def replaceFirst (pat rep : JStr) : JStr → JStr
  | [] => if pat.isEmpty then rep else []
  | c :: t =>
    if pat.isPrefixOf (c :: t) then rep ++ (c :: t).drop pat.length
    else c :: replaceFirst pat rep t

/-- Model of the JS ordinal string comparison `a < b` (lexicographic on
character code points). -/
def strLt : JStr → JStr → Bool
  | _, [] => false
  | [], _ :: _ => true
  | a :: as, b :: bs =>
    if a.toNat < b.toNat then true
    else if b.toNat < a.toNat then false
    else strLt as bs

/-- Modelled from the spec: the `NpmPackage` class (file
`ext-src/packages/npm/NpmPackage.ts`, not under `src/`) per §3
PackageRecord — a name, a version, an integrity hash, and the two
optional classification fields of the TypeScript constructor
(`IsTransitive?: boolean`, `DependencyType?: string`). -/
structure NpmPackage where
  Name : JStr
  Version : JStr
  Hash : JStr
  IsTransitive : Option Bool := none
  DependencyType : Option JStr := none
deriving DecidableEq, Repr

/-- Modelled from the spec: `NpmPackage.toPurl` (not under `src/`), the
canonical identifier — a deterministic package-URL string built from
`name` and `version` (§3). -/
def toPurl (p : NpmPackage) : JStr :=
  str ("pkg:npm/") ++ p.Name ++ str ("@") ++ p.Version

/-- `NpmUtils.removeScopeSymbolFromName` (NpmUtils.ts:217-223): a leading
`@` is encoded as `%40`. -/
def removeScopeSymbolFromName (name : JStr) : JStr :=
  match name with
  | '@' :: rest => '%' :: '4' :: '0' :: rest
  | _ => name

/-- `NpmUtils.setAndReturnNpmPackage` (NpmUtils.ts:140-152): take the last
split part, encode a leading scope marker, split on `@`; construct the
record when `newSplit[0] != ""` and `newSplit[1] != undefined` (throwing,
modelled as `none`, otherwise), decoding `%40` back to `@` in the name. -/
def setAndReturnNpmPackage (splitParts : List JStr) : Option NpmPackage :=
  match splitParts.getLast? with
  | none => none
  | some lastPart =>
    let newName := removeScopeSymbolFromName lastPart
    let newSplit := splitOnChar '@' newName
    let name := newSplit.headD []
    match newSplit.get? 1 with
    | none => none
    | some version =>
      if name = [] then none
      else some { Name := replaceFirst (str ("%40")) (str ("@")) name,
                  Version := version, Hash := [] }

/-- `NpmUtils.isRegularVersion` (NpmUtils.ts:166-186): reject any version
token containing one of the range operators. -/
def isRegularVersion (version : JStr) : Bool :=
  if containsSub version (str ("^")) then false
  else if containsSub version (str (">=")) then false
  else if containsSub version (str ("<=")) then false
  else if containsSub version (str ("~")) then false
  else if containsSub version (str ("<")) then false
  else if containsSub version (str (">")) then false
  else true

/-- Worker for `uniqBy`, carrying the iteratee values already seen. -/
def uniqByAux (f : NpmPackage → JStr) : List NpmPackage → List JStr → List NpmPackage
  | [], _ => []
  | a :: l, seen =>
    if seen.contains (f a) then uniqByAux f l seen
    else a :: uniqByAux f l ((f a) :: seen)

/-- Model of lodash `_.uniqBy(list, f)`: keep the first element for each
iteratee value, preserving order. -/
def uniqBy (f : NpmPackage → JStr) (l : List NpmPackage) : List NpmPackage :=
  uniqByAux f l []

/-- Insert a package into an already sorted list, before the first
element whose name is not strictly smaller.  This realizes one step of
the stable comparator sort used by `sortDependencyList`. -/
def sortInsert (a : NpmPackage) : List NpmPackage → List NpmPackage
  | [] => [a]
  | b :: l => if strLt b.Name a.Name then b :: sortInsert a l else a :: b :: l

/-- `NpmUtils.sortDependencyList` (NpmUtils.ts:154-164): JS
`Array.prototype.sort` with the name comparator (`1` when
`a.Name > b.Name`, `-1` when `a.Name < b.Name`, `0` otherwise).  JS sort
is stable and the comparator induces the total preorder "name order", so
the call is modelled by a stable insertion sort on names. -/
def sortDependencyList (list : List NpmPackage) : List NpmPackage :=
  match list with
  | [] => []
  | a :: t => sortInsert a (sortDependencyList t)

/-- Loop body of `parseYarnList` (NpmUtils.ts:116-131) for a non-header
line: split the trimmed line on spaces, skip it when the trailing token
is a range version, otherwise build the record (a thrown construction
error skips the line). -/
def yarnLine (dep : JStr) : Option NpmPackage :=
  let splitParts := splitOnChar ' ' (trim dep)
  if isRegularVersion (splitParts.getLastD []) then
    setAndReturnNpmPackage splitParts
  else none

/-- The record list `parseYarnList` builds before its final sort:
every line after the header, filtered per line, then deduplicated by
`toPurl` (first occurrence wins). -/
def yarnPreSort (output : JStr) : List NpmPackage :=
  uniqBy toPurl (((splitOnChar '\n' output).tail).filterMap yarnLine)

/-- `NpmUtils.parseYarnList` (NpmUtils.ts:112-138). -/
def parseYarnList (output : JStr) : List NpmPackage :=
  sortDependencyList (yarnPreSort output)

/-- Loop body of `parseNpmList` (NpmUtils.ts:192-208) for a non-header
line: skip the line when its trailing token is the literal `deduped`,
otherwise build the record (no version-range check on this path). -/
def npmLine (dep : JStr) : Option NpmPackage :=
  let splitParts := splitOnChar ' ' (trim dep)
  if splitParts.getLastD [] = str ("deduped") then none
  else setAndReturnNpmPackage splitParts

/-- The record list `parseNpmList` builds before its final sort. -/
def npmPreSort (output : JStr) : List NpmPackage :=
  uniqBy toPurl (((splitOnChar '\n' output).tail).filterMap npmLine)

/-- `NpmUtils.parseNpmList` (NpmUtils.ts:188-215). -/
def parseNpmList (output : JStr) : List NpmPackage :=
  sortDependencyList (npmPreSort output)

/-- Boolean check that a record list is ordered by name ascending
(ordinal comparison): no element is strictly greater than its successor. -/
def sortedByName : List NpmPackage → Bool
  | [] => true
  | [_] => true
  | a :: b :: t => !(strLt b.Name a.Name) && sortedByName (b :: t)

/-- One node of the parsed `npm-shrinkwrap.json` dependency tree: a
`version`, the optional boolean `dev` marker (absent modelled as
`false`), and an optional nested map of child dependencies in key order. -/
inductive DepTree where
  | node (version : JStr) (dev : Bool) (dependencies : Option (List (JStr × DepTree)))

/-- The `version` field of a tree node. -/
def DepTree.version : DepTree → JStr
  | .node v _ _ => v

/-- The `dev` marker of a tree node. -/
def DepTree.dev : DepTree → Bool
  | .node _ d _ => d

/-- The parsed `package.json` manifest: its two optional name-to-spec
maps, `none` when the key is absent. -/
structure PackageJson where
  dependencies : Option (List (JStr × JStr))
  devDependencies : Option (List (JStr × JStr))

/-- `NpmUtils.extractInfo` (NpmUtils.ts:326-339): map each key of a
dependency dictionary to an `NpmPackage` built from the key, the node's
`version`, an empty hash, `isTransitive = true`, and a type tag from the
node's `dev` marker.  Only those scalars are passed to the constructor:
the node's nested `dependencies` map is not carried over. -/
def extractInfo (array : List (JStr × DepTree)) : List NpmPackage :=
  array.map fun kv =>
    { Name := kv.1, Version := kv.2.version, Hash := [],
      IsTransitive := some true,
      DependencyType := some (if kv.2.dev then str ("devDependency") else str ("dependency")) }

/-- `NpmUtils.flattenDependencies` (NpmUtils.ts:312-323): push each entry,
then recurse `if (dependency.dependencies)`.  The entries are the
`NpmPackage` values produced by `extractInfo`, which carry no
`dependencies` property (see `NpmPackage`), so in JS that guard reads
`undefined` and the recursive branch never runs: the function returns
its input elements in order. -/
def flattenDependencies (dependencies : List NpmPackage) : List NpmPackage :=
  match dependencies with
  | [] => []
  | d :: rest => d :: flattenDependencies rest

/-- `NpmUtils.extractPackageJsonInfo` (NpmUtils.ts:342-349) applied to an
optional manifest map.  On `undefined` the JS `Object.keys` call throws a
`TypeError` (modelled as `Except.error`); otherwise each key yields an
`NpmPackage` with `array[k].split(":")[1]` as version (that element is
`undefined`, modelled as `[]`, when the spec has no `:`),
`isTransitive = false` and no dependency type. -/
def extractPackageJsonInfo (array : Option (List (JStr × JStr))) :
    Except JStr (List NpmPackage) :=
  match array with
  | none => .error (str ("TypeError: Cannot convert undefined or null to object"))
  | some arr => .ok (arr.map fun kv =>
      { Name := kv.1, Version := (splitOnChar ':' kv.2).getD 1 [],
        Hash := [], IsTransitive := some false, DependencyType := none })

/-- One iteration of the reconciliation inner loop
(NpmUtils.ts:260-276 and 291-304) for a declared name `ename`: walk the
flattened list, setting `IsTransitive := true` on every record examined,
and stop at the first record whose name equals `ename`, marking it
`IsTransitive := false` with dependency type `tag`; records after the
break point are left untouched. -/
def reconcilePass (tag : JStr) (ename : JStr) : List NpmPackage → List NpmPackage
  | [] => []
  | r :: l =>
    if r.Name = ename then
      { r with IsTransitive := some false, DependencyType := some tag } :: l
    else
      { r with IsTransitive := some true } :: reconcilePass tag ename l

/-- `NpmUtils.flattenAndUniqDependencies` (NpmUtils.ts:225-310): return
the empty array when the tree root has no `dependencies` key; otherwise
flatten, then run the declared-runtime-dependencies reconciliation pass
followed by the declared-dev-dependencies pass, and return the (mutated)
flattened list.  The `uniqBy`-by-name list the source also computes is
only logged, never returned. -/
def flattenAndUniqDependencies (npmShrinkwrapDependencies : Option (List (JStr × DepTree)))
    (npmPackageContents : PackageJson) : Except JStr (List NpmPackage) :=
  match npmShrinkwrapDependencies with
  | none => .ok []
  | some deps => do
    let flat := flattenDependencies (extractInfo deps)
    let dependenciesTopLevel ← extractPackageJsonInfo npmPackageContents.dependencies
    let flat1 := dependenciesTopLevel.foldl
      (fun acc e => reconcilePass (str ("dependency")) e.Name acc) flat
    let devDependencies ← extractPackageJsonInfo npmPackageContents.devDependencies
    let flat2 := devDependencies.foldl
      (fun acc e => reconcilePass (str ("devDependency")) e.Name acc) flat1
    return flat2

/-- The manifest-type constant `YARN_LOCK` (NpmScanType.ts). -/
def YARN_LOCK : JStr := str ("yarn.lock")

/-- The manifest-type constant `NPM_SHRINKWRAP_JSON` (NpmScanType.ts). -/
def NPM_SHRINKWRAP_JSON : JStr := str ("npm-shrinkwrap.json")

/-- The manifest-type constant `PACKAGE_LOCK_JSON` (NpmScanType.ts). -/
def PACKAGE_LOCK_JSON : JStr := str ("package-lock.json")

/-- The external inputs `getDependencyArray` consumes: the captured
stdout/stderr of the three external commands, the parsed
`npm-shrinkwrap.json` tree (its root `dependencies` member), and the
parsed `package.json` manifest. -/
structure Env where
  yarnStdout : JStr
  yarnStderr : JStr
  shrinkStdout : JStr
  shrinkStderr : JStr
  npmStdout : JStr
  npmStderr : JStr
  shrinkwrapJson : Option (List (JStr × DepTree))
  packageJson : PackageJson

/-- `NpmUtils.getDependencyArray` (NpmUtils.ts:34-110): dispatch on the
manifest type; a promise rejection is `Except.error`.  On the
shrinkwrap path a `TypeError` thrown inside `flattenAndUniqDependencies`
is caught by the surrounding `try` and rejected as
`` `${manifestType} read failed ... : ${e.stderr}` `` (the `stderr` field
of a `TypeError` is `undefined`). -/
def getDependencyArray (env : Env) (manifestType : JStr) : Except JStr (List NpmPackage) :=
  if manifestType = YARN_LOCK then
    if env.yarnStdout ≠ [] ∧ env.yarnStderr = [] then
      .ok (parseYarnList env.yarnStdout)
    else .error (str ("Error running yarn list, err: ") ++ env.yarnStderr)
  else if manifestType = NPM_SHRINKWRAP_JSON then
    if env.shrinkStdout ≠ [] ∨ containsSub env.shrinkStderr NPM_SHRINKWRAP_JSON then
      match flattenAndUniqDependencies env.shrinkwrapJson env.packageJson with
      | .ok l => .ok l
      | .error _ =>
        .error (manifestType ++ str (" read failed, try running it manually to see what went wrong: undefined"))
    else .error (str ("Unable to run npm shrinkwrap"))
  else if manifestType = PACKAGE_LOCK_JSON then
    if env.npmStdout ≠ [] ∧ env.npmStderr = [] then
      .ok (parseNpmList env.npmStdout)
    else .error (str ("Error running npm list, err: ") ++ env.npmStderr)
  else
    .error (str ("No valid command supplied, have you implemented it? Manifest type supplied: ") ++ manifestType)

/-- The ordering the name comparator of `sortDependencyList` induces:
`x` sorts no later than `y` when `y.Name` is not strictly smaller. -/
def nameLe (x y : NpmPackage) : Prop := strLt y.Name x.Name = false

/-- The dependency type of the first record of `l` whose name is `n`
(`none` when no record matches). -/
def nameTypeAt (n : JStr) (l : List NpmPackage) : Option (Option JStr) :=
  (l.find? (fun p => p.Name == n)).map (fun p => p.DependencyType)

theorem strLt_irrefl (l : JStr) : strLt l l = false := by
  induction l with
  | nil => rfl
  | cons a t ih => simp [strLt, ih]

theorem strLt_asymm {x y : JStr} (h : strLt x y = true) : strLt y x = false := by
  induction x generalizing y with
  | nil =>
    cases y with
    | nil => simp [strLt] at h
    | cons b bs => rfl
  | cons a as ih =>
    cases y with
    | nil => simp [strLt] at h
    | cons b bs =>
      simp only [strLt] at h ⊢
      by_cases hab : a.toNat < b.toNat
      · have hba : ¬ b.toNat < a.toNat := by omega
        simp [hab, hba]
      · by_cases hba : b.toNat < a.toNat
        · simp [hab, hba] at h
        · simp only [hab, hba, if_false] at h ⊢
          exact ih h

theorem strLt_le_trans {x y z : JStr} (h1 : strLt y x = false) (h2 : strLt z y = false) :
    strLt z x = false := by
  induction x generalizing y z with
  | nil =>
    cases z with
    | nil => rfl
    | cons c cs => rfl
  | cons a as ih =>
    cases z with
    | nil =>
      cases y with
      | nil => simp [strLt] at h1
      | cons b bs => simp [strLt] at h2
    | cons c cs =>
      cases y with
      | nil => simp [strLt] at h1
      | cons b bs =>
        simp only [strLt] at h1 h2 ⊢
        by_cases hba : b.toNat < a.toNat
        · simp [hba] at h1
        · by_cases hcb : c.toNat < b.toNat
          · simp [hcb] at h2
          · by_cases hca : c.toNat < a.toNat
            · omega
            · by_cases hac : a.toNat < c.toNat
              · simp [hca, hac]
              · have hab : a.toNat = b.toNat := by omega
                have hbc : b.toNat = c.toNat := by omega
                simp only [hba, if_false, if_neg (by omega : ¬ a.toNat < b.toNat)] at h1
                simp only [hcb, if_false, if_neg (by omega : ¬ b.toNat < c.toNat)] at h2
                simp only [hca, hac, if_false]
                exact ih h1 h2

theorem sortInsert_perm (a : NpmPackage) (l : List NpmPackage) :
    List.Perm (sortInsert a l) (a :: l) := by
  induction l with
  | nil => rfl
  | cons b t ih =>
    simp only [sortInsert]
    split
    · exact (ih.cons b).trans (List.Perm.swap a b t)
    · rfl

theorem sortDependencyList_perm (l : List NpmPackage) : List.Perm (sortDependencyList l) l := by
  induction l with
  | nil => rfl
  | cons a t ih => exact (sortInsert_perm a (sortDependencyList t)).trans (ih.cons a)

theorem pairwise_sortInsert {a : NpmPackage} {l : List NpmPackage}
    (h : l.Pairwise nameLe) : (sortInsert a l).Pairwise nameLe := by
  induction l with
  | nil => simp [sortInsert, nameLe]
  | cons b t ih =>
    rcases List.pairwise_cons.mp h with ⟨hb, ht⟩
    simp only [sortInsert]
    split
    case isTrue hlt =>
      refine List.pairwise_cons.mpr ⟨?_, ih ht⟩
      intro x hx
      have hx' : x ∈ a :: t := (sortInsert_perm a t).mem_iff.mp hx
      rcases List.mem_cons.mp hx' with rfl | hx'
      · exact strLt_asymm hlt
      · exact hb x hx'
    case isFalse hge =>
      have hba : strLt b.Name a.Name = false := by
        simpa using hge
      refine List.pairwise_cons.mpr ⟨?_, h⟩
      intro x hx
      rcases List.mem_cons.mp hx with hx | hx
      · subst hx; exact hba
      · exact strLt_le_trans hba (hb x hx)

theorem pairwise_sortDependencyList (l : List NpmPackage) :
    (sortDependencyList l).Pairwise nameLe := by
  induction l with
  | nil => simp [sortDependencyList]
  | cons a t ih => exact pairwise_sortInsert ih

theorem filter_sortInsert (n : JStr) (a : NpmPackage) (l : List NpmPackage) :
    (sortInsert a l).filter (fun p => p.Name == n) =
      if a.Name == n then a :: l.filter (fun p => p.Name == n)
      else l.filter (fun p => p.Name == n) := by
  induction l with
  | nil => by_cases ha : a.Name = n <;> simp [sortInsert, List.filter_cons, ha]
  | cons b t ih =>
    simp only [sortInsert]
    split
    case isTrue hlt =>
      by_cases ha : a.Name = n
      · have hbn : ¬ b.Name = n := by
          intro hbn
          have hba : b.Name = a.Name := by rw [hbn, ha]
          rw [hba, strLt_irrefl] at hlt
          exact Bool.false_ne_true hlt
        simp [List.filter_cons, ha, hbn, ih]
      · by_cases hb : b.Name = n <;>
          simp [List.filter_cons, ha, hb, ih]
    case isFalse hge =>
      by_cases ha : a.Name = n <;> by_cases hb : b.Name = n <;>
        simp [List.filter_cons, ha, hb]

theorem filter_sortDependencyList (n : JStr) (l : List NpmPackage) :
    (sortDependencyList l).filter (fun p => p.Name == n) =
      l.filter (fun p => p.Name == n) := by
  induction l with
  | nil => rfl
  | cons a t ih =>
    simp only [sortDependencyList]
    rw [filter_sortInsert, ih, List.filter_cons]

theorem uniqByAux_subset {f : NpmPackage → JStr} {l : List NpmPackage}
    {seen : List JStr} {x : NpmPackage} (h : x ∈ uniqByAux f l seen) : x ∈ l := by
  induction l generalizing seen with
  | nil => simp [uniqByAux] at h
  | cons a t ih =>
    simp only [uniqByAux] at h
    split at h
    · exact List.mem_cons_of_mem a (ih h)
    · rcases List.mem_cons.mp h with rfl | hx
      · exact List.mem_cons_self x t
      · exact List.mem_cons_of_mem a (ih hx)

theorem uniqByAux_not_seen {f : NpmPackage → JStr} {l : List NpmPackage}
    {seen : List JStr} {x : NpmPackage} (h : x ∈ uniqByAux f l seen) :
    f x ∉ seen := by
  induction l generalizing seen with
  | nil => simp [uniqByAux] at h
  | cons a t ih =>
    simp only [uniqByAux] at h
    split at h
    case isTrue hc => exact ih h
    case isFalse hc =>
      rcases List.mem_cons.mp h with rfl | hx
      · intro hmem
        exact hc (List.elem_eq_true_of_mem hmem)
      · intro hmem
        exact (ih hx) (List.mem_cons_of_mem (f a) hmem)

theorem pairwise_uniqByAux (f : NpmPackage → JStr) (l : List NpmPackage)
    (seen : List JStr) :
    (uniqByAux f l seen).Pairwise (fun x y => f x ≠ f y) := by
  induction l generalizing seen with
  | nil => simp [uniqByAux]
  | cons a t ih =>
    simp only [uniqByAux]
    split
    · exact ih seen
    · refine List.pairwise_cons.mpr ⟨?_, ih ((f a) :: seen)⟩
      intro y hy
      have := uniqByAux_not_seen hy
      intro hfa
      exact this (hfa ▸ List.mem_cons_self (f a) seen)

theorem splitOnChar_ne_nil (sep : Char) (l : JStr) : splitOnChar sep l ≠ [] := by
  cases l with
  | nil => simp [splitOnChar]
  | cons c rest =>
    simp only [splitOnChar]
    split
    · simp
    · split <;> simp

theorem splitOnChar_nomem {sep : Char} {l : JStr} (h : sep ∉ l) :
    splitOnChar sep l = [l] := by
  induction l with
  | nil => rfl
  | cons c rest ih =>
    have hc : ¬ c = sep := fun hc => h (hc ▸ List.mem_cons_self c rest)
    have hr : sep ∉ rest := fun hr => h (List.mem_cons_of_mem c hr)
    simp only [splitOnChar, ih hr]
    simp [hc]

theorem splitOnChar_append_cons {sep : Char} {xs : JStr} (ys : JStr) (h : sep ∉ xs) :
    splitOnChar sep (xs ++ sep :: ys) = xs :: splitOnChar sep ys := by
  induction xs with
  | nil =>
    simp only [List.nil_append, splitOnChar]
    cases hys : splitOnChar sep ys with
    | nil => exact absurd hys (splitOnChar_ne_nil sep ys)
    | cons a t => simp
  | cons d ds ih =>
    have hd : ¬ d = sep := fun hd => h (hd ▸ List.mem_cons_self d ds)
    have hds : sep ∉ ds := fun hds => h (List.mem_cons_of_mem d hds)
    simp only [List.cons_append, splitOnChar, List.append_eq]
    rw [ih hds]
    simp [hd]

theorem containsSub_spec (l pat : JStr) : containsSub l pat = true ↔ pat <:+: l := by
  induction l with
  | nil =>
    simp only [containsSub, List.isEmpty_iff]
    constructor
    · intro h; rw [h]
    · intro h; exact List.eq_nil_of_infix_nil h
  | cons c t ih =>
    rw [List.infix_cons_iff]
    simp only [containsSub, Bool.or_eq_true, ih, List.isPrefixOf_iff_prefix]

theorem reconcilePass_map_name (tag m : JStr) (l : List NpmPackage) :
    (reconcilePass tag m l).map (fun p => p.Name) = l.map (fun p => p.Name) := by
  induction l with
  | nil => rfl
  | cons r t ih =>
    by_cases hr : r.Name = m <;> simp [reconcilePass, hr, ih]

theorem foldl_reconcilePass_map_name (tag : JStr) (devs : List NpmPackage)
    (l : List NpmPackage) :
    ((devs.foldl (fun acc e => reconcilePass tag e.Name acc) l).map (fun p => p.Name)) =
      l.map (fun p => p.Name) := by
  induction devs generalizing l with
  | nil => rfl
  | cons d ds ih =>
    simp only [List.foldl_cons]
    rw [ih, reconcilePass_map_name]

theorem nameTypeAt_cons (n : JStr) (r : NpmPackage) (t : List NpmPackage) :
    nameTypeAt n (r :: t) =
      if r.Name = n then some r.DependencyType else nameTypeAt n t := by
  unfold nameTypeAt
  by_cases h : r.Name = n
  · rw [List.find?_cons_of_pos _ (by simpa using h)]
    simp [h]
  · rw [List.find?_cons_of_neg _ (by simpa using h)]
    simp [h]

theorem nameTypeAt_reconcilePass_self {tag n : JStr} {l : List NpmPackage}
    (h : n ∈ l.map (fun p => p.Name)) :
    nameTypeAt n (reconcilePass tag n l) = some (some tag) := by
  induction l with
  | nil => simp at h
  | cons r t ih =>
    by_cases hr : r.Name = n
    · simp [reconcilePass, hr, nameTypeAt_cons]
    · rw [List.map_cons] at h
      rcases List.mem_cons.mp h with h1 | h1
      · exact absurd h1.symm hr
      · simp only [reconcilePass, if_neg hr, nameTypeAt_cons]
        exact ih h1

theorem nameTypeAt_reconcilePass_ne {n m : JStr} (tag : JStr) (l : List NpmPackage)
    (h : n ≠ m) :
    nameTypeAt n (reconcilePass tag m l) = nameTypeAt n l := by
  induction l with
  | nil => rfl
  | cons r t ih =>
    by_cases hr : r.Name = m
    · have hn : ¬ r.Name = n := fun hc => h (hc ▸ hr ▸ rfl)
      simp [reconcilePass, hr, hn, nameTypeAt_cons, Ne.symm h]
    · by_cases hn : r.Name = n
      · simp [reconcilePass, hr, hn, nameTypeAt_cons, h]
      · simp only [reconcilePass, if_neg hr, nameTypeAt_cons]
        simp only [if_neg hn]
        exact ih

theorem nameTypeAt_mem {n : JStr} {l : List NpmPackage} {o : Option JStr}
    (h : nameTypeAt n l = some o) : n ∈ l.map (fun p => p.Name) := by
  unfold nameTypeAt at h
  rcases Option.map_eq_some'.mp h with ⟨r, hr, _⟩
  have hm := List.mem_of_find?_eq_some hr
  have hp := List.find?_some hr
  have hrn : r.Name = n := by simpa using hp
  exact hrn ▸ List.mem_map_of_mem (fun p => p.Name) hm

theorem foldl_reconcilePass_preserve {tag n : JStr} {l : List NpmPackage}
    (devs : List NpmPackage) (hp : nameTypeAt n l = some (some tag)) :
    nameTypeAt n (devs.foldl (fun acc e => reconcilePass tag e.Name acc) l) =
      some (some tag) := by
  induction devs generalizing l with
  | nil => exact hp
  | cons d ds ih =>
    simp only [List.foldl_cons]
    apply ih
    by_cases hd : n = d.Name
    · subst hd
      exact nameTypeAt_reconcilePass_self (nameTypeAt_mem hp)
    · rw [nameTypeAt_reconcilePass_ne tag l hd]
      exact hp

theorem foldl_reconcilePass_sets {tag n : JStr} {l : List NpmPackage}
    (devs : List NpmPackage) (hn : n ∈ devs.map (fun p => p.Name))
    (hl : n ∈ l.map (fun p => p.Name)) :
    nameTypeAt n (devs.foldl (fun acc e => reconcilePass tag e.Name acc) l) =
      some (some tag) := by
  induction devs generalizing l with
  | nil => simp at hn
  | cons d ds ih =>
    simp only [List.foldl_cons]
    by_cases hd : d.Name = n
    · apply foldl_reconcilePass_preserve
      subst hd
      exact nameTypeAt_reconcilePass_self hl
    · rw [List.map_cons] at hn
      rcases List.mem_cons.mp hn with h1 | h1
      · exact absurd h1.symm hd
      · apply ih h1
        rw [reconcilePass_map_name]
        exact hl

/-- C8: the version classifier `isRegularVersion` returns `false` exactly
when the token contains one of the substrings `^`, `~`, `>=`, `<=`, `>`,
`<`, and `true` for every other token; it is a pure function of the
token. -/
theorem c8_isRegularVersion_spec (v : JStr) :
    isRegularVersion v = false ↔
      (str ("^") <:+: v ∨ str ("~") <:+: v ∨ str (">=") <:+: v ∨
       str ("<=") <:+: v ∨ str (">") <:+: v ∨ str ("<") <:+: v) := by
  simp only [← containsSub_spec]
  unfold isRegularVersion
  cases h1 : containsSub v (str ("^")) <;>
    cases h2 : containsSub v (str (">=")) <;>
      cases h3 : containsSub v (str ("<=")) <;>
        cases h4 : containsSub v (str ("~")) <;>
          cases h5 : containsSub v (str ("<")) <;>
            cases h6 : containsSub v (str (">")) <;>
              simp [h1, h2, h3, h4, h5, h6]

/-- C9: when the lockfile-style tree root has no `dependencies` member,
the flatten-and-reconcile path returns the empty sequence and signals no
error, whatever the manifest contains. -/
theorem c9_empty_tree_ok (pkg : PackageJson) :
    flattenAndUniqDependencies none pkg = Except.ok [] := rfl

/-- C4: the reconciliation inner scan marks `IsTransitive := true` on
every flattened record strictly before its first name match (updating the
match and leaving the rest untouched); consequently, on the concrete
two-record input below, record `a` — declared as a runtime dependency and
set non-transitive by the first pass — is reverted to transitive by the
dev pass for `b`, which matches after it. -/
theorem c4_dev_pass_reverts_transitive :
    (∀ (tag ename : JStr) (l : List NpmPackage),
      reconcilePass tag ename l =
        (l.takeWhile (fun r => !(r.Name == ename))).map
          (fun r => { r with IsTransitive := some true }) ++
        (match l.dropWhile (fun r => !(r.Name == ename)) with
         | [] => []
         | r :: t =>
           { r with IsTransitive := some false, DependencyType := some tag } :: t)) ∧
    flattenAndUniqDependencies
        (some [(str ("a"), .node (str ("1.0.0")) false none),
               (str ("b"), .node (str ("1.0.0")) false none)])
        ⟨some [(str ("a"), str ("1.0.0"))], some [(str ("b"), str ("1.0.0"))]⟩ =
      Except.ok
        [⟨str ("a"), str ("1.0.0"), [], some true, some (str ("dependency"))⟩,
         ⟨str ("b"), str ("1.0.0"), [], some false, some (str ("devDependency"))⟩] := by
  constructor
  · intro tag ename l
    induction l with
    | nil => rfl
    | cons r t ih =>
      by_cases h : r.Name = ename
      · simp [reconcilePass, h, List.takeWhile_cons, List.dropWhile_cons]
      · simp [reconcilePass, h, List.takeWhile_cons, List.dropWhile_cons, ih]
  · rfl

/-- C6 counterexample: the candidate token `foo@` is not discarded — it
yields a record with name `foo` and an empty version, because the source
only checks the version part against `undefined`, not against the empty
string. -/
theorem c6_counterexample :
    setAndReturnNpmPackage [str ("foo@")] =
      some { Name := str ("foo"), Version := [], Hash := [] } := rfl

/-- C6 (amended): record construction succeeds iff the name part of the
`@`-split is non-empty and a version part exists at all (the split has at
least two parts); an empty-but-present version part is accepted rather
than discarded. -/
theorem c6_record_construction_condition (ps : List JStr) (lastPart : JStr) :
    (setAndReturnNpmPackage (ps ++ [lastPart])).isSome = true ↔
      ((splitOnChar '@' (removeScopeSymbolFromName lastPart)).headD [] ≠ [] ∧
       2 ≤ (splitOnChar '@' (removeScopeSymbolFromName lastPart)).length) := by
  simp only [setAndReturnNpmPackage, List.getLast?_concat]
  generalize splitOnChar '@' (removeScopeSymbolFromName lastPart) = ns
  rcases ns with _ | ⟨x, _ | ⟨y, t⟩⟩
  · simp
  · simp
  · by_cases hx : x = [] <;> simp [hx, Nat.le_add_left]

/-- C1 counterexample: on the shrinkwrap path `getDependencyArray`
returns the flattened list as-is — here `[b, a]`, which is not ordered by
name ascending — because `flattenAndUniqDependencies` returns
`flatDependencies`, never running the deduplicator/sorter. -/
theorem c1_counterexample :
    getDependencyArray
        { yarnStdout := [], yarnStderr := [], shrinkStdout := str ("x"),
          shrinkStderr := [], npmStdout := [], npmStderr := [],
          shrinkwrapJson := some [(str ("b"), .node (str ("1.0.0")) false none),
                                  (str ("a"), .node (str ("1.0.0")) false none)],
          packageJson := ⟨some [], some []⟩ }
        NPM_SHRINKWRAP_JSON =
      Except.ok
        [⟨str ("b"), str ("1.0.0"), [], some true, some (str ("dependency"))⟩,
         ⟨str ("a"), str ("1.0.0"), [], some true, some (str ("dependency"))⟩] ∧
    sortedByName
        [⟨str ("b"), str ("1.0.0"), [], some true, some (str ("dependency"))⟩,
         ⟨str ("a"), str ("1.0.0"), [], some true, some (str ("dependency"))⟩] = false := by
  constructor
  · rfl
  · rfl

/-- C1 (amended): on the yarn-list and npm-list paths the returned
sequence has pairwise-distinct canonical identifiers (`toPurl`) and is
ordered by name ascending under ordinal comparison, with equal names kept
in their pre-sort relative order; the shrinkwrap path returns the
flattened reconciled list without this deduplication or sorting. -/
theorem c1_parse_paths_unique_sorted_stable (output : JStr) (n : JStr) :
    ((parseYarnList output).Pairwise (fun x y => toPurl x ≠ toPurl y) ∧
     (parseYarnList output).Pairwise nameLe ∧
     (parseYarnList output).filter (fun p => p.Name == n) =
       (yarnPreSort output).filter (fun p => p.Name == n)) ∧
    ((parseNpmList output).Pairwise (fun x y => toPurl x ≠ toPurl y) ∧
     (parseNpmList output).Pairwise nameLe ∧
     (parseNpmList output).filter (fun p => p.Name == n) =
       (npmPreSort output).filter (fun p => p.Name == n)) := by
  have hsym : ∀ {x y : NpmPackage}, toPurl x ≠ toPurl y → toPurl y ≠ toPurl x :=
    fun h => Ne.symm h
  refine ⟨⟨?_, ?_, ?_⟩, ⟨?_, ?_, ?_⟩⟩
  · exact ((sortDependencyList_perm (yarnPreSort output)).pairwise_iff hsym).mpr
      (pairwise_uniqByAux toPurl _ [])
  · exact pairwise_sortDependencyList _
  · exact filter_sortDependencyList n _
  · exact ((sortDependencyList_perm (npmPreSort output)).pairwise_iff hsym).mpr
      (pairwise_uniqByAux toPurl _ [])
  · exact pairwise_sortDependencyList _
  · exact filter_sortDependencyList n _

/-- C2 counterexample: `parseNpmList` keeps a record whose version is the
range expression `^4.0.0` — no version-range filter runs on this path. -/
theorem c2_counterexample :
    parseNpmList (str ("root\nchalk@^4.0.0")) =
      [⟨str ("chalk"), str ("^4.0.0"), [], none, none⟩] ∧
    containsSub (str ("^4.0.0")) (str ("^")) = true := by
  constructor
  · rfl
  · rfl

/-- C2 (amended): `parseNpmList` applies no version-range filter; every
record in its output is built by `setAndReturnNpmPackage` from some
non-header line whose trailing token is not the literal `deduped`,
whatever the version part contains. -/
theorem c2_npm_list_no_version_filter (output : JStr) (p : NpmPackage)
    (hp : p ∈ parseNpmList output) :
    ∃ dep ∈ (splitOnChar '\n' output).tail,
      (splitOnChar ' ' (trim dep)).getLastD [] ≠ str ("deduped") ∧
      setAndReturnNpmPackage (splitOnChar ' ' (trim dep)) = some p := by
  have h1 : p ∈ npmPreSort output :=
    (sortDependencyList_perm (npmPreSort output)).mem_iff.mp hp
  have h2 : p ∈ ((splitOnChar '\n' output).tail).filterMap npmLine :=
    uniqByAux_subset h1
  rcases List.mem_filterMap.mp h2 with ⟨dep, hdep, hline⟩
  refine ⟨dep, hdep, ?_, ?_⟩
  · intro hded
    unfold npmLine at hline
    rw [if_pos hded] at hline
    exact Option.noConfusion hline
  · unfold npmLine at hline
    by_cases hded : (splitOnChar ' ' (trim dep)).getLastD [] = str ("deduped")
    · rw [if_pos hded] at hline
      exact Option.noConfusion hline
    · rwa [if_neg hded] at hline

/-- C2 witness: the amended provenance statement instantiated on the
concrete listing whose second line carries the range version `^4.0.0`. -/
theorem c2_npm_list_no_version_filter_witness :
    ∃ dep ∈ (splitOnChar '\n' (str ("root\nchalk@^4.0.0"))).tail,
      (splitOnChar ' ' (trim dep)).getLastD [] ≠ str ("deduped") ∧
      setAndReturnNpmPackage (splitOnChar ' ' (trim dep)) =
        some ⟨str ("chalk"), str ("^4.0.0"), [], none, none⟩ :=
  c2_npm_list_no_version_filter (str ("root\nchalk@^4.0.0"))
    ⟨str ("chalk"), str ("^4.0.0"), [], none, none⟩ (by decide)

/-- C3: on scenario C's tree the flatten-and-reconcile path loses the
nested dependency `b@2.0.0` — `extractInfo` passes only scalars to the
record constructor (its own comment claims it extracts `dependencies`),
so the recursion guard in `flattenDependencies` never fires and the
output names are exactly `[a]`. -/
theorem c3_nested_dependency_lost :
    flattenAndUniqDependencies
        (some [(str ("a"),
                .node (str ("1.0.0")) false
                  (some [(str ("b"), .node (str ("2.0.0")) false none)]))])
        ⟨some [(str ("a"), str ("^1.0.0"))], some []⟩ =
      Except.ok
        [⟨str ("a"), str ("1.0.0"), [], some false, some (str ("dependency"))⟩] ∧
    ([⟨str ("a"), str ("1.0.0"), [], some false,
       some (str ("dependency"))⟩] : List NpmPackage).map (fun p => p.Name) =
      [str ("a")] := by
  constructor
  · rfl
  · rfl

/-- C5: the declared-runtime pass runs before the declared-dev pass, so a
name declared in both manifest maps leaves the first matching flattened
record classified `devDependency` once reconciliation completes. -/
theorem c5_dev_classification_wins (rootDeps : List (JStr × DepTree))
    (dmap devmap : List (JStr × JStr)) (n : JStr)
    (h1 : n ∈ dmap.map Prod.fst) (h2 : n ∈ devmap.map Prod.fst)
    (h3 : n ∈ (flattenDependencies (extractInfo rootDeps)).map (fun p => p.Name)) :
    ∃ out r,
      flattenAndUniqDependencies (some rootDeps) ⟨some dmap, some devmap⟩ =
        Except.ok out ∧
      out.find? (fun p => p.Name == n) = some r ∧
      r.DependencyType = some (str ("devDependency")) := by
  have hres : ∃ f2,
      flattenAndUniqDependencies (some rootDeps) ⟨some dmap, some devmap⟩ =
        Except.ok f2 ∧
      nameTypeAt n f2 = some (some (str ("devDependency"))) := by
    refine ⟨_, rfl, ?_⟩
    apply foldl_reconcilePass_sets
    · simpa [List.map_map, Function.comp] using h2
    · rw [foldl_reconcilePass_map_name]
      exact h3
  rcases hres with ⟨f2, hok, hty⟩
  unfold nameTypeAt at hty
  rcases Option.map_eq_some'.mp hty with ⟨r, hr, hrt⟩
  exact ⟨f2, r, hok, hr, hrt⟩

/-- C5 witness: the theorem applied to a one-record tree whose package is
declared in both manifest maps. -/
theorem c5_dev_classification_wins_witness :
    ∃ out r,
      flattenAndUniqDependencies
          (some [(str ("a"), .node (str ("1.0.0")) false none)])
          ⟨some [(str ("a"), str ("1.0.0"))], some [(str ("a"), str ("1.0.0"))]⟩ =
        Except.ok out ∧
      out.find? (fun p => p.Name == str ("a")) = some r ∧
      r.DependencyType = some (str ("devDependency")) :=
  c5_dev_classification_wins _ _ _ _ (by decide) (by decide) (by decide)

/-- C7: a scoped candidate of shape `@scope/pkg@<version>` round-trips
through the scope-marker encoding, `@`-split and decoding: the record has
name `@scope/pkg` and version `<version>`. -/
theorem c7_scope_roundtrip (scope pkg ver : JStr)
    (h1 : '@' ∉ scope) (h2 : '@' ∉ pkg) (h3 : '@' ∉ ver) :
    setAndReturnNpmPackage ['@' :: (scope ++ '/' :: pkg ++ '@' :: ver)] =
      some { Name := '@' :: (scope ++ '/' :: pkg), Version := ver, Hash := [] } := by
  have hxs : '@' ∉ ('%' :: '4' :: '0' :: (scope ++ '/' :: pkg)) := by
    intro hmem
    simp only [List.mem_cons, List.mem_append] at hmem
    rcases hmem with h | h | h | h | h | h
    · exact absurd h (by decide)
    · exact absurd h (by decide)
    · exact absurd h (by decide)
    · exact h1 h
    · exact absurd h (by decide)
    · exact h2 h
  have key : splitOnChar '@' ('%' :: '4' :: '0' :: (scope ++ '/' :: pkg ++ '@' :: ver)) =
      ('%' :: '4' :: '0' :: (scope ++ '/' :: pkg)) :: [ver] := by
    have hassoc : ('%' :: '4' :: '0' :: (scope ++ '/' :: pkg ++ '@' :: ver) : JStr) =
        ('%' :: '4' :: '0' :: (scope ++ '/' :: pkg)) ++ '@' :: ver := by
      simp
    rw [hassoc, splitOnChar_append_cons ver hxs, splitOnChar_nomem h3]
  have hrep : replaceFirst (str ("%40")) (str ("@"))
      ('%' :: '4' :: '0' :: (scope ++ '/' :: pkg)) = '@' :: (scope ++ '/' :: pkg) := by
    show replaceFirst ['%', '4', '0'] ['@'] ('%' :: '4' :: '0' :: (scope ++ '/' :: pkg)) = _
    simp [replaceFirst, List.isPrefixOf]
  have unfold1 : ∀ tok : JStr, setAndReturnNpmPackage [tok] =
      (let newSplit := splitOnChar '@' (removeScopeSymbolFromName tok)
       match newSplit.get? 1 with
       | none => none
       | some version =>
         if newSplit.headD [] = [] then none
         else some { Name := replaceFirst (str ("%40")) (str ("@")) (newSplit.headD []),
                     Version := version, Hash := [] }) :=
    fun _ => rfl
  have hsc : removeScopeSymbolFromName ('@' :: (scope ++ '/' :: pkg ++ '@' :: ver)) =
      '%' :: '4' :: '0' :: (scope ++ '/' :: pkg ++ '@' :: ver) := rfl
  rw [unfold1, hsc, key]
  simp [hrep]

/-- C7 witness: the round-trip at the concrete token `@scope/pkg@1.0.0`
from the spec's scenario E. -/
theorem c7_scope_roundtrip_witness :
    setAndReturnNpmPackage
        ['@' :: (str ("scope") ++ '/' :: str ("pkg") ++ '@' :: str ("1.0.0"))] =
      some { Name := '@' :: (str ("scope") ++ '/' :: str ("pkg")),
             Version := str ("1.0.0"), Hash := [] } :=
  c7_scope_roundtrip (str ("scope")) (str ("pkg")) (str ("1.0.0"))
    (by decide) (by decide) (by decide)

/-- C10 counterexample: on a supported selector (`npm-shrinkwrap.json`)
with a manifest lacking a `dependencies` map, the call also refuses to
produce output — the `Object.keys(undefined)` TypeError is caught and the
whole call is rejected — so the unrecognized-selector error is not the
only core-level refusal. -/
theorem c10_counterexample :
    getDependencyArray
        ⟨[], [], str ("x"), [], [], [],
         some [(str ("a"), .node (str ("1.0.0")) false none)], ⟨none, none⟩⟩
        NPM_SHRINKWRAP_JSON =
      Except.error
        (NPM_SHRINKWRAP_JSON ++
          str (" read failed, try running it manually to see what went wrong: undefined")) := rfl

/-- C10 (amended): for every selector other than the three implemented
formats, `getDependencyArray` fails with an error message naming the
supplied manifest type and produces no records; this is however not the
only refusal case (see the counterexample). -/
theorem c10_unknown_type_error (env : Env) (t : JStr)
    (h1 : t ≠ YARN_LOCK) (h2 : t ≠ NPM_SHRINKWRAP_JSON) (h3 : t ≠ PACKAGE_LOCK_JSON) :
    getDependencyArray env t =
      Except.error
        (str ("No valid command supplied, have you implemented it? Manifest type supplied: ") ++ t) ∧
    t <:+:
      (str ("No valid command supplied, have you implemented it? Manifest type supplied: ") ++ t) := by
  constructor
  · simp [getDependencyArray, h1, h2, h3]
  · exact ⟨str ("No valid command supplied, have you implemented it? Manifest type supplied: "),
      [], by simp⟩

/-- C10 witness: the unknown-selector failure at the concrete type
`bogus`. -/
theorem c10_unknown_type_error_witness :
    getDependencyArray ⟨[], [], [], [], [], [], none, ⟨none, none⟩⟩ (str ("bogus")) =
      Except.error
        (str ("No valid command supplied, have you implemented it? Manifest type supplied: ") ++
          str ("bogus")) ∧
    str ("bogus") <:+:
      (str ("No valid command supplied, have you implemented it? Manifest type supplied: ") ++
        str ("bogus")) :=
  c10_unknown_type_error ⟨[], [], [], [], [], [], none, ⟨none, none⟩⟩ (str ("bogus"))
    (by decide) (by decide) (by decide)
